import Mathlib

/-!
Shallow embedding of the commit-model core of the commitmessage repository
(`commitmessage/model.py`, plus the diff-delta counting loop of
`commitmessage/controllers/svn.py`), together with theorems checking the
natural-language specification against it.

Embedding conventions:
* Python strings are `String`; `s.split(sep)` is `splitChar` on the
  character list, `sep.join(parts)` is `joinChar`.
* Python exceptions are `Except PyError`; `CmException` raises map to
  `PyError.cmException`, an out-of-range index such as `path[0]` on the
  empty string maps to `PyError.indexError`.
* The in-place mutation of the directory tree is made explicit: every
  operation that mutates the tree returns the rebuilt tree.  `File`'s
  back-reference to its parent directory is dropped (ownership is the
  tree edge itself); no claim depends on it.
-/

namespace Commitmessage

/-- Errors the Python code can raise: `CmException` for the explicit raises
in `model.py` / `svn.py`, `indexError` for `path[0]` applied to an empty
string. -/
inductive PyError : Type where
  | cmException (msg : String) : PyError
  | indexError : PyError
deriving DecidableEq

/-- Python `s.split(sep)` on a list of characters: split at every occurrence
of `sep`, keeping empty pieces (so `"/a//".split("/") = ["", "a", "", ""]`). -/
def splitChar (sep : Char) : List Char → List (List Char)
  | [] => [[]]
  | c :: rest =>
    match splitChar sep rest with
    | [] => [[]]
    | s :: ss => if c = sep then [] :: s :: ss else (c :: s) :: ss

/-- Python `sep.join(parts)` on lists of characters. -/
def joinChar (sep : Char) : List (List Char) → List Char
  | [] => []
  | [x] => x
  | x :: y :: ys => x ++ sep :: joinChar sep (y :: ys)

/-- Python `s.split('/')` for a `String`. -/
def pySplit (s : String) (sep : Char) : List String :=
  (splitChar sep s.data).map (fun l => ⟨l⟩)

/-- Python `'/'.join(parts)` for strings. -/
def pyJoin (sep : Char) (parts : List String) : String :=
  ⟨joinChar sep (parts.map String.data)⟩

/-- `File` (`model.py`): name, SCM action, and the optional revision, delta
and diff attributes that are filled in later by the controllers. -/
structure File where
  name : String
  action : String
  rev : Option String
  delta : Option String
  diff : Option String
deriving DecidableEq

/-- `Directory` (`model.py`): absolute path, action (default `none` in the
Python constructor), the affected files and the subdirectories.  The file
list is kept name-sorted by `addFile`; subdirectories are in insertion
order. -/
inductive Directory : Type where
  | mk (path : String) (action : String) (files : List File)
      (subdirectories : List Directory) : Directory

/-- The `path` attribute. -/
def Directory.path : Directory → String
  | .mk p _ _ _ => p

/-- The `action` attribute. -/
def Directory.action : Directory → String
  | .mk _ a _ _ => a

/-- The `files` attribute. -/
def Directory.files : Directory → List File
  | .mk _ _ fs _ => fs

/-- The `subdirectories` attribute. -/
def Directory.subdirectories : Directory → List Directory
  | .mk _ _ _ subs => subs

/-- `Directory.name`: `'/'` for the root, otherwise `path.split('/')[-2]`
(the segment before the trailing slash).  The out-of-range default `""` is
never reached on the slash-delimited paths the model builds. -/
def Directory.name (d : Directory) : String :=
  if d.path = "/" then "/"
  else (pySplit d.path '/').reverse.getD 1 ""

/-- `Directory.file(name)`: first file with that name, else `None`. -/
def Directory.file (d : Directory) (n : String) : Option File :=
  d.files.find? (fun f => f.name == n)

/-- `Directory.subdirectory(name)`: first subdirectory with that name,
else `None`. -/
def Directory.subdirectory (d : Directory) (n : String) : Option Directory :=
  d.subdirectories.find? (fun c => c.name == n)

/-- `Directory.hasSubdirectory(name)`. -/
def Directory.hasSubdirectory (d : Directory) (n : String) : Bool :=
  (d.subdirectory n).isSome

/-- `Directory.filesByAction(action)`: all files when the action filter is
`None`, otherwise the files whose action is exactly the filter. -/
def Directory.filesByAction (d : Directory) (action : Option String) : List File :=
  match action with
  | none => d.files
  | some a => d.files.filter (fun f => f.action == a)

/-- Python's ordinal (code-point) comparison of strings, on character
lists: the comparison `list.sort(key=...)` uses. -/
def charListLE : List Char → List Char → Bool
  | [], _ => true
  | _ :: _, [] => false
  | a :: as, b :: bs =>
    if a.val < b.val then true
    else if b.val < a.val then false
    else charListLE as bs

/-- Python `a <= b` on strings (case-sensitive, code-point ordinal). -/
def pyStrLE (a b : String) : Bool := charListLE a.data b.data

theorem u32lt_iff (a b : UInt32) : a < b ↔ a.toNat < b.toNat := by
  rw [UInt32.lt_def, BitVec.lt_def]
  rfl

theorem charListLE_total : ∀ a b : List Char,
    charListLE a b = true ∨ charListLE b a = true := by
  intro a
  induction a with
  | nil => intro b; left; rfl
  | cons x as ih =>
    intro b
    cases b with
    | nil => right; rfl
    | cons y bs =>
      rcases Nat.lt_trichotomy x.val.toNat y.val.toNat with h | h | h
      · left
        rw [charListLE, if_pos ((u32lt_iff x.val y.val).mpr h)]
      · have hxy : ¬ x.val < y.val := by
          rw [u32lt_iff]; omega
        have hyx : ¬ y.val < x.val := by
          rw [u32lt_iff]; omega
        rcases ih bs with h2 | h2
        · left
          rw [charListLE, if_neg hxy, if_neg hyx]
          exact h2
        · right
          rw [charListLE, if_neg hyx, if_neg hxy]
          exact h2
      · right
        rw [charListLE, if_pos ((u32lt_iff y.val x.val).mpr h)]

theorem charListLE_trans : ∀ a b c : List Char,
    charListLE a b = true → charListLE b c = true → charListLE a c = true := by
  intro a
  induction a with
  | nil => intro b c _ _; rfl
  | cons x as ih =>
    intro b c h1 h2
    cases b with
    | nil => rw [charListLE] at h1; simp at h1
    | cons y bs =>
      cases c with
      | nil => rw [charListLE] at h2; simp at h2
      | cons z cs =>
        rw [charListLE] at h1 h2 ⊢
        simp only [u32lt_iff] at h1 h2 ⊢
        by_cases hxy : x.val.toNat < y.val.toNat
        · by_cases hyz : y.val.toNat < z.val.toNat
          · rw [if_pos (by omega)]
          · rw [if_neg hyz] at h2
            by_cases hzy : z.val.toNat < y.val.toNat
            · rw [if_pos hzy] at h2; simp at h2
            · rw [if_pos (by omega)]
        · rw [if_neg hxy] at h1
          by_cases hyx : y.val.toNat < x.val.toNat
          · rw [if_pos hyx] at h1; simp at h1
          · rw [if_neg hyx] at h1
            by_cases hyz : y.val.toNat < z.val.toNat
            · rw [if_pos (by omega)]
            · rw [if_neg hyz] at h2
              by_cases hzy : z.val.toNat < y.val.toNat
              · rw [if_pos hzy] at h2; simp at h2
              · rw [if_neg hzy] at h2
                rw [if_neg (by omega), if_neg (by omega)]
                exact ih bs cs h1 h2

/-- The key order of `files.sort(key=lambda x: x.name)`. -/
def fileLE (a b : File) : Prop := pyStrLE a.name b.name = true

instance : DecidableRel fileLE := fun a b =>
  inferInstanceAs (Decidable (pyStrLE a.name b.name = true))

instance : IsTotal File fileLE :=
  ⟨fun a b => charListLE_total a.name.data b.name.data⟩

instance : IsTrans File fileLE :=
  ⟨fun a b c h1 h2 => charListLE_trans a.name.data b.name.data c.name.data h1 h2⟩

/-- `Directory.addFile(file)`: append the file, then re-sort the file list
by name (Python's stable `list.sort(key=...)`; `insertionSort` is the
matching stable sort). -/
def Directory.addFile (d : Directory) (f : File) : Directory :=
  Directory.mk d.path d.action (List.insertionSort fileLE (d.files ++ [f]))
    d.subdirectories

/-- `Directory.addSubdirectory(subdir)`: append at the end, insertion order
preserved. -/
def Directory.addSubdirectory (d : Directory) (c : Directory) : Directory :=
  Directory.mk d.path d.action d.files (d.subdirectories ++ [c])

/-- `File.__init__(name, directory, action)`: reject names containing a
forward slash, otherwise build the file and register it in its directory
(the Python constructor calls `directory.addFile(self)`).  Returns the file
together with the updated directory. -/
def File.create (name : String) (directory : Directory) (action : String) :
    Except PyError (File × Directory) :=
  if name.data.contains '/' then
    .error (.cmException "File names may not have foward slashes in them.")
  else
    let f : File := ⟨name, action, none, none, none⟩
    .ok (f, directory.addFile f)

/-- `Model` (`model.py`): the root directory plus the commit metadata. -/
structure Model where
  rootDirectory : Directory
  user : String
  log : String
  repo : String

/-- A freshly constructed `Model()`: root `Directory('/')`, empty user. -/
def Model.empty : Model :=
  ⟨Directory.mk "/" "none" [] [], "", "", ""⟩

/-- Replace the first subdirectory whose name is `n` (the object the Python
loop mutates through the alias returned by `subdirectory(name)`). -/
def replaceFirstSub (n : String) (newd : Directory) :
    List Directory → List Directory
  | [] => []
  | c :: rest =>
    if c.name == n then newd :: rest else c :: replaceFirstSub n newd rest

/-- The walking loop of `Model.directory(path)` over the already split path
segments: blank segments are ignored, an existing subdirectory of the
segment's name is descended into, a missing one is created as
`Directory(currentDirectory.path + dir + '/')` and appended.  `upd` is
applied to the directory reached at the end (`id` for `Model.directory`
itself; `addFile f` reproduces the aliasing mutation done by `File.__init__`
on the returned directory).  Returns the rebuilt tree and the final node. -/
def walkSegs (upd : Directory → Directory) (d : Directory) :
    List String → Directory × Directory
  | [] => (upd d, upd d)
  | seg :: rest =>
    if seg = "" then walkSegs upd d rest
    else
      match d.subdirectory seg with
      | some child =>
        (Directory.mk d.path d.action d.files
          (replaceFirstSub seg (walkSegs upd child rest).1 d.subdirectories),
         (walkSegs upd child rest).2)
      | none =>
        (Directory.mk d.path d.action d.files
          (d.subdirectories ++
            [(walkSegs upd (Directory.mk (d.path ++ seg ++ "/") "none" [] []) rest).1]),
         (walkSegs upd (Directory.mk (d.path ++ seg ++ "/") "none" [] []) rest).2)

/-- `Model.directory(path)`: validate the leading and trailing slash
(`path[0]` on the empty string raises `IndexError` in Python), short-circuit
the root, otherwise split the path and walk/build the tree.  Returns the
directory for the path together with the updated model. -/
def Model.directory (m : Model) (path : String) :
    Except PyError (Directory × Model) :=
  match path.data.head?, path.data.getLast? with
  | none, _ => .error .indexError
  | _, none => .error .indexError
  | some c0, some c1 =>
    if c0 ≠ '/' ∨ c1 ≠ '/' then
      .error (.cmException
        "Directory paths must start with a forward slash and end with a forward slash.")
    else if path = "/" then .ok (m.rootDirectory, m)
    else
      let r := walkSegs id m.rootDirectory (pySplit path '/')
      .ok (r.2, Model.mk r.1 m.user m.log m.repo)

/-- `Model.file(path)`: validate the path, split off the file name, resolve
the remaining prefix through `Model.directory` (creating missing directories
as a side effect), then look the file up by name in that directory. -/
def Model.file (m : Model) (path : String) :
    Except PyError (Option File × Model) :=
  if path = "" then .error (.cmException "File paths may not be empty.")
  else if path.data.head? ≠ some '/' ∨ path.data.getLast? = some '/' then
    .error (.cmException
      "File paths must begin with a forward slash and not end with a forward slash.")
  else
    let parts := pySplit path '/'
    let parentDirectoryPath := pyJoin '/' parts.dropLast ++ "/"
    match m.directory parentDirectoryPath with
    | .error e => .error e
    | .ok (dir, m2) => .ok (dir.file (parts.getLastD ""), m2)

/-- The loop of `Model.greatestCommonDirectory`: descend into the sole
subdirectory while the action is `'none'`, there is exactly one
subdirectory, and there are no files; return the path where that stops. -/
def Directory.gcdWalk : Directory → String
  | .mk p a fs subs =>
    match subs with
    | [child] => if a = "none" ∧ fs = [] then child.gcdWalk else p
    | _ => p

/-- `Model.greatestCommonDirectory()`. -/
def Model.greatestCommonDirectory (m : Model) : String :=
  m.rootDirectory.gcdWalk

/-- The per-file loop of `Model._files`: append the file when the action
filter is `None` or matches exactly. -/
def fileSel (action : Option String) : List File → List File
  | [] => []
  | f :: fs =>
    match action with
    | some a =>
      if f.action == a then f :: fileSel (some a) fs else fileSel (some a) fs
    | none => f :: fileSel none fs

mutual

/-- `Model._files(directory, action)`: the directory's own (filtered) files
first, then the files of each subdirectory in insertion order. -/
def Model.filesD (action : Option String) : Directory → List File
  | .mk _ _ fs subs => fileSel action fs ++ Model.filesDs action subs

/-- The subdirectory loop of `Model._files` (`files.extend(...)`). -/
def Model.filesDs (action : Option String) : List Directory → List File
  | [] => []
  | d :: ds => Model.filesD action d ++ Model.filesDs action ds

end

/-- `Model.files(action=None)`. -/
def Model.files (m : Model) (action : Option String) : List File :=
  Model.filesD action m.rootDirectory

/-- The key order of `dirs.sort(key=lambda x: x.name)`: bare name. -/
def dirLE (a b : Directory) : Prop := pyStrLE a.name b.name = true

instance : DecidableRel dirLE := fun a b =>
  inferInstanceAs (Decidable (pyStrLE a.name b.name = true))

instance : IsTotal Directory dirLE :=
  ⟨fun a b => charListLE_total a.name.data b.name.data⟩

instance : IsTrans Directory dirLE :=
  ⟨fun a b c h1 h2 => charListLE_trans a.name.data b.name.data c.name.data h1 h2⟩

mutual

/-- `Model._directories(directory, action)`: the directory itself (when the
action filter is `None` or matches the directory's own action), then the
subdirectories in pre-order. -/
def Model.dirsD (action : Option String) : Directory → List Directory
  | .mk p a fs subs =>
    (match action with
     | some act =>
       if a == act then [Directory.mk p a fs subs] else []
     | none => [Directory.mk p a fs subs]) ++ Model.dirsDs action subs

/-- The subdirectory loop of `Model._directories`. -/
def Model.dirsDs (action : Option String) : List Directory → List Directory
  | [] => []
  | d :: ds => Model.dirsD action d ++ Model.dirsDs action ds

end

/-- `Model.directories(action=None)`: pre-order collection, then
`dirs.sort(key=lambda x: x.name)`. -/
def Model.directories (m : Model) (action : Option String) : List Directory :=
  List.insertionSort dirLE (Model.dirsD action m.rootDirectory)

mutual

/-- `Model._directoriesWithFiles(directory, action)`: the directory is
included iff `len(directory.filesByAction(action)) > 0`. -/
def Model.dwfD (action : Option String) : Directory → List Directory
  | .mk p a fs subs =>
    (if 0 < ((Directory.mk p a fs subs).filesByAction action).length
     then [Directory.mk p a fs subs] else []) ++ Model.dwfDs action subs

/-- The subdirectory loop of `Model._directoriesWithFiles`. -/
def Model.dwfDs (action : Option String) : List Directory → List Directory
  | [] => []
  | d :: ds => Model.dwfD action d ++ Model.dwfDs action ds

end

/-- `Model.directoriesWithFiles(action=None)`: collect, then sort by name. -/
def Model.directoriesWithFiles (m : Model) (action : Option String) :
    List Directory :=
  List.insertionSort dirLE (Model.dwfD action m.rootDirectory)

/-- The routing key computed by `Controller._executeViews` before it queries
`getModulesForPath`: the greatest common directory, with the single file's
name appended when the model holds exactly one file overall, and prefixed
with `'/' + repo` when `matchWithRepoPrefix()` is configured on. -/
def Controller.routingKey (m : Model) (matchRepo : Bool) : String :=
  let g0 := m.greatestCommonDirectory
  let g1 :=
    match m.files none with
    | [f] => g0 ++ f.name
    | _ => g0
  if matchRepo then "/" ++ m.repo ++ g1 else g1

/-- The counting loop of `SvnController.saveDiffs` over the lines of one
diff block (the lines after the `Modified:`/`Copied:`/`Deleted:` header):
count lines starting with `'+'` that are not a `'+++ '` header, and lines
starting with `'-'` that are not a `'--- '` header. -/
def SvnController.countDelta (lines : List String) : Nat × Nat :=
  lines.foldl
    (fun ar line =>
      if 0 < line.length then
        if line.data.head? = some '+' ∧ line.data.take 4 ≠ "+++ ".data then
          (ar.1 + 1, ar.2)
        else if line.data.head? = some '-' ∧ line.data.take 4 ≠ "--- ".data then
          (ar.1, ar.2 + 1)
        else ar
      else ar)
    (0, 0)

/-- The delta string `'+%s -%s' % (added, removed)` stored by `saveDiffs`. -/
def SvnController.deltaString (lines : List String) : String :=
  let ar := SvnController.countDelta lines
  "+" ++ toString ar.1 ++ " -" ++ toString ar.2

/-! ### Small helper lemmas about the embedding -/

theorem Directory.path_mk (p a : String) (fs : List File) (subs : List Directory) :
    (Directory.mk p a fs subs).path = p := rfl

theorem Directory.action_mk (p a : String) (fs : List File) (subs : List Directory) :
    (Directory.mk p a fs subs).action = a := rfl

theorem Directory.files_mk (p a : String) (fs : List File) (subs : List Directory) :
    (Directory.mk p a fs subs).files = fs := rfl

theorem Directory.subdirectories_mk (p a : String) (fs : List File)
    (subs : List Directory) : (Directory.mk p a fs subs).subdirectories = subs := rfl

theorem strData_append (a b : String) : (a ++ b).data = a.data ++ b.data := rfl

theorem strData_eq_iff (a b : String) : a = b ↔ a.data = b.data := by
  constructor
  · intro h
    rw [h]
  · intro h
    cases a
    cases b
    exact congrArg String.mk h

/-- An induction principle for the nested inductive `Directory`: to prove a
property of every directory it suffices to prove it for a node assuming it
for all subdirectories. -/
theorem Directory.ind {motive : Directory → Prop}
    (h : ∀ (p a : String) (fs : List File) (subs : List Directory),
      (∀ c ∈ subs, motive c) → motive (Directory.mk p a fs subs)) :
    ∀ d, motive d
  | .mk p a fs subs => h p a fs subs (fun c hc => Directory.ind h c)
termination_by d => sizeOf d
decreasing_by
  have := List.sizeOf_lt_of_mem hc
  simp only [Directory.mk.sizeOf_spec]
  omega

/-! ### Claim C1 — the greatest-common-directory walk -/

/-- A tree that is a single chain where only the deepest directory has
files. -/
def chainTree : Directory :=
  Directory.mk "/" "none" []
    [Directory.mk "/a/" "none" []
      [Directory.mk "/a/b/" "none" []
        [Directory.mk "/a/b/c/" "none" [⟨"f.txt", "added", none, none, none⟩] []]]]

/-- A root with two files directly in it. -/
def rootWithFilesTree : Directory :=
  Directory.mk "/" "none"
    [⟨"x.txt", "added", none, none, none⟩, ⟨"y.txt", "modified", none, none, none⟩]
    []

/-- Claim C1: `greatestCommonDirectory()` starts at the root and descends
into the sole child subdirectory exactly as long as the current directory's
action is `none`, it has exactly one subdirectory, and it has zero files;
on the chain `/ -> a/ -> b/ -> c/` with files only in `c/` it returns
`/a/b/c/`, and on a root that itself has files it returns `/`. -/
theorem claim_c1_greatestCommonDirectory :
    (∀ (p : String) (fs : List File) (child : Directory),
        Directory.gcdWalk (Directory.mk p "none" fs [child]) =
          if fs = [] then child.gcdWalk else p)
    ∧ (∀ (p a : String) (fs : List File) (subs : List Directory),
        ¬(a = "none" ∧ subs.length = 1 ∧ fs = []) →
        Directory.gcdWalk (Directory.mk p a fs subs) = p)
    ∧ Directory.gcdWalk chainTree = "/a/b/c/"
    ∧ Directory.gcdWalk rootWithFilesTree = "/" := by
  refine ⟨fun p fs child => ?_, fun p a fs subs h => ?_, by decide, by decide⟩
  · simp [Directory.gcdWalk]
  · match subs with
    | [] => rfl
    | [child] =>
      rw [Directory.gcdWalk, if_neg]
      intro hc
      exact h ⟨hc.1, rfl, hc.2⟩
    | c1 :: c2 :: cs => rfl

/-- Witness for C1: the stop conditions at a concrete directory whose
action is not `none`. -/
theorem claim_c1_greatestCommonDirectory_witness :
    Directory.gcdWalk (Directory.mk "/" "added" []
      [Directory.mk "/a/" "none" [] []]) = "/" :=
  claim_c1_greatestCommonDirectory.2.1 "/" "added" []
    [Directory.mk "/a/" "none" [] []] (by decide)

/-! ### Claim C4 — single-file commits route on the file's exact path -/

/-- A model whose only file is `/a/b/x.txt` and that has no other changes. -/
def singleFileModel : Model :=
  ⟨Directory.mk "/" "none" []
    [Directory.mk "/a/" "none" []
      [Directory.mk "/a/b/" "none" [⟨"x.txt", "added", none, none, none⟩] []]],
   "", "", ""⟩

/-- Claim C4: when the model contains exactly one file overall, the routing
key computed by `Controller._executeViews` is the greatest common directory
with that file's bare name appended (with the optional repo prefix in front
when configured); for a model whose only file is `/a/b/x.txt` the key is
`/a/b/x.txt`, not `/a/b/`. -/
theorem claim_c4_singleFile_routingKey :
    (∀ (m : Model) (f : File), m.files none = [f] →
        Controller.routingKey m false = m.greatestCommonDirectory ++ f.name
        ∧ Controller.routingKey m true =
            "/" ++ m.repo ++ (m.greatestCommonDirectory ++ f.name))
    ∧ Controller.routingKey singleFileModel false = "/a/b/x.txt" := by
  refine ⟨fun m f h => ?_, by decide⟩
  constructor <;> simp [Controller.routingKey, h]

/-- Witness for C4: the general single-file statement applied to the
concrete single-file model. -/
theorem claim_c4_singleFile_routingKey_witness :
    Controller.routingKey singleFileModel false =
      singleFileModel.greatestCommonDirectory ++ "x.txt" :=
  (claim_c4_singleFile_routingKey.1 singleFileModel
    ⟨"x.txt", "added", none, none, none⟩ (by decide)).1

/-! ### Claim C5 — diff delta counting -/

theorem take_length_eq_iff (a b : List Char) : b.take a.length = a ↔ a <+: b := by
  constructor
  · intro h
    have hd := List.take_append_drop a.length b
    rw [h] at hd
    exact ⟨b.drop a.length, hd⟩
  · rintro ⟨t, rfl⟩
    exact List.take_left a t

theorem head_eq_iff (c : Char) (l : List Char) :
    l.head? = some c ↔ [c] <+: l := by
  cases l with
  | nil => simp
  | cons x xs =>
    simp only [List.head?_cons, Option.some.injEq]
    constructor
    · rintro rfl; exact ⟨xs, rfl⟩
    · rintro ⟨t, ht⟩
      cases ht
      rfl

/-- `lines beginning with c`, excluding `lines beginning with header`: the
spec's description of which lines are counted. -/
def isCounted (c : Char) (header : String) (l : String) : Bool :=
  decide ([c] <+: l.data ∧ ¬ (header.data <+: l.data))

/-- The declarative count the spec describes. -/
def countLines (c : Char) (header : String) (lines : List String) : Nat :=
  lines.countP (isCounted c header)

/-- The step function of the `saveDiffs` counting loop, named so that it can
be reasoned about (definitionally equal to the lambda in `countDelta`). -/
def deltaStep (ar : Nat × Nat) (line : String) : Nat × Nat :=
  if 0 < line.length then
    if line.data.head? = some '+' ∧ line.data.take 4 ≠ "+++ ".data then
      (ar.1 + 1, ar.2)
    else if line.data.head? = some '-' ∧ line.data.take 4 ≠ "--- ".data then
      (ar.1, ar.2 + 1)
    else ar
  else ar

theorem countDelta_eq_foldl (lines : List String) :
    SvnController.countDelta lines = lines.foldl deltaStep (0, 0) := rfl

theorem isCounted_iff (c : Char) (header : String) (l : String)
    (hh : header.data.length = 4) (hc : header.data.head? = some c) :
    isCounted c header l = true ↔
      (0 < l.length ∧ l.data.head? = some c ∧ l.data.take 4 ≠ header.data) := by
  rw [isCounted, decide_eq_true_iff, ← head_eq_iff, ← take_length_eq_iff, hh]
  constructor
  · intro h
    refine ⟨?_, h.1, h.2⟩
    rw [String.length]
    cases hl : l.data
    · rw [hl] at h
      simp at h
    · simp
  · intro h
    exact ⟨h.2.1, h.2.2⟩

theorem deltaStep_characterize (ar : Nat × Nat) (l : String) :
    deltaStep ar l =
      (ar.1 + (if isCounted '+' "+++ " l then 1 else 0),
       ar.2 + (if isCounted '-' "--- " l then 1 else 0)) := by
  have hp := isCounted_iff '+' "+++ " l (by decide) (by decide)
  have hm := isCounted_iff '-' "--- " l (by decide) (by decide)
  rw [deltaStep]
  by_cases h0 : 0 < l.length
  · rw [if_pos h0]
    by_cases hplus : l.data.head? = some '+' ∧ l.data.take 4 ≠ "+++ ".data
    · rw [if_pos hplus]
      have h1 : isCounted '+' "+++ " l = true := hp.mpr ⟨h0, hplus.1, hplus.2⟩
      have h2 : isCounted '-' "--- " l = false := by
        rw [Bool.eq_false_iff]
        intro hcon
        have := (hm.mp hcon).2.1
        rw [hplus.1] at this
        simp at this
      rw [h1, h2]
      simp
    · rw [if_neg hplus]
      have h1 : isCounted '+' "+++ " l = false := by
        rw [Bool.eq_false_iff]
        intro hcon
        obtain ⟨_, a, b⟩ := hp.mp hcon
        exact hplus ⟨a, b⟩
      by_cases hminus : l.data.head? = some '-' ∧ l.data.take 4 ≠ "--- ".data
      · rw [if_pos hminus, h1]
        have h2 : isCounted '-' "--- " l = true := hm.mpr ⟨h0, hminus.1, hminus.2⟩
        rw [h2]
        simp
      · rw [if_neg hminus, h1]
        have h2 : isCounted '-' "--- " l = false := by
          rw [Bool.eq_false_iff]
          intro hcon
          obtain ⟨_, a, b⟩ := hm.mp hcon
          exact hminus ⟨a, b⟩
        rw [h2]
        simp
  · rw [if_neg h0]
    have hempty : l.data = [] := by
      rw [String.length] at h0
      cases hl : l.data
      · rfl
      · rw [hl] at h0
        simp at h0
    have h1 : isCounted '+' "+++ " l = false := by
      rw [Bool.eq_false_iff]
      intro hcon
      exact h0 (hp.mp hcon).1
    have h2 : isCounted '-' "--- " l = false := by
      rw [Bool.eq_false_iff]
      intro hcon
      exact h0 (hm.mp hcon).1
    rw [h1, h2]
    simp

theorem foldl_deltaStep (lines : List String) (x y : Nat) :
    lines.foldl deltaStep (x, y) =
      (x + countLines '+' "+++ " lines, y + countLines '-' "--- " lines) := by
  induction lines generalizing x y with
  | nil => simp [countLines]
  | cons l ls ih =>
    rw [List.foldl_cons, deltaStep_characterize, ih]
    simp only [countLines, List.countP_cons, Prod.mk.injEq]
    constructor <;> omega

/-- A diff block's body: a `--- `/`+++ ` header pair, a hunk line, and two
added lines (2 counted additions, 0 counted removals). -/
def diffBlockExample : List String :=
  ["--- a.txt\t(rev 1)", "+++ b.txt\t(rev 2)", "@@ -0,0 +1,2 @@", "+one", "+two"]

/-- Claim C5: the delta computed for a per-file diff block is the pair
(count of lines beginning with `+` excluding `+++ ` headers, count of lines
beginning with `-` excluding `--- ` headers), rendered as `'+A -R'`; the
example block with two added lines yields `"+2 -0"`. -/
theorem claim_c5_diff_delta :
    (∀ lines : List String,
        SvnController.countDelta lines =
          (countLines '+' "+++ " lines, countLines '-' "--- " lines)
        ∧ SvnController.deltaString lines =
            "+" ++ toString (countLines '+' "+++ " lines) ++ " -" ++
              toString (countLines '-' "--- " lines))
    ∧ SvnController.deltaString diffBlockExample = "+2 -0" := by
  have key : ∀ lines : List String,
      SvnController.countDelta lines =
        (countLines '+' "+++ " lines, countLines '-' "--- " lines) := by
    intro lines
    rw [countDelta_eq_foldl, foldl_deltaStep]
    simp
  refine ⟨fun lines => ⟨key lines, ?_⟩, by decide⟩
  rw [SvnController.deltaString, key lines]

/-! ### Claim C6 — pre-order file flattening -/

/-- The action filter as a boolean predicate (`None` admits every file). -/
def actionSel (action : Option String) (f : File) : Bool :=
  match action with
  | none => true
  | some a => f.action == a

theorem fileSel_eq_filter (action : Option String) (fs : List File) :
    fileSel action fs = fs.filter (actionSel action) := by
  induction fs with
  | nil => cases action <;> rfl
  | cons f fs ih =>
    cases action with
    | none => simp [fileSel, List.filter, actionSel, ih]
    | some a =>
      rw [fileSel, List.filter_cons]
      cases h : (f.action == a) with
      | true =>
        rw [if_pos (by simp [h]), if_pos (by simp [actionSel, h]), ih]
      | false =>
        rw [if_neg (by simp [h]), if_neg (by simp [actionSel, h]), ih]

/-- The spec's description of `files(action?)`: pre-order flattening — the
current directory's (filtered) files come before any file of its
subdirectories, and subdirectories are visited in insertion order. -/
def filesSpec (action : Option String) (d : Directory) : List File :=
  match d with
  | .mk _ _ fs subs =>
    fs.filter (actionSel action)
      ++ (subs.attach.map (fun c => filesSpec action c.1)).flatten
termination_by sizeOf d
decreasing_by
  have := List.sizeOf_lt_of_mem c.2
  simp only [Directory.mk.sizeOf_spec]
  omega

theorem filesSpec_mk (action : Option String) (p a : String) (fs : List File)
    (subs : List Directory) :
    filesSpec action (.mk p a fs subs) =
      fs.filter (actionSel action) ++ (subs.map (filesSpec action)).flatten := by
  rw [filesSpec]
  congr 1
  rw [List.attach_map_val]

theorem filesDs_eq_flatten (action : Option String) (ds : List Directory) :
    Model.filesDs action ds = (ds.map (Model.filesD action)).flatten := by
  induction ds with
  | nil => rfl
  | cons d ds ih => rw [Model.filesDs, ih, List.map_cons, List.flatten_cons]

theorem filesD_eq_spec (action : Option String) :
    ∀ d, Model.filesD action d = filesSpec action d := by
  intro d
  induction d using Directory.ind with
  | h p a fs subs ih =>
    rw [Model.filesD, filesSpec_mk, fileSel_eq_filter, filesDs_eq_flatten]
    congr 2
    exact List.map_congr_left ih

theorem filesD_filter (a : String) :
    ∀ d, Model.filesD (some a) d =
      (Model.filesD none d).filter (fun f => f.action == a) := by
  intro d
  induction d using Directory.ind with
  | h p act fs subs ih =>
    rw [Model.filesD, Model.filesD, fileSel_eq_filter, fileSel_eq_filter,
      List.filter_append]
    have hfs : (fs.filter (actionSel (some a))) =
        (fs.filter (actionSel none)).filter (fun f => f.action == a) := by
      have h1 : fs.filter (actionSel none) = fs :=
        List.filter_eq_self.mpr (fun x _ => rfl)
      rw [h1]
      rfl
    rw [hfs]
    congr 1
    induction subs with
    | nil => rfl
    | cons c cs ihs =>
      rw [Model.filesDs, Model.filesDs, List.filter_append,
        ih c (by simp), ihs (fun x hx => ih x (by simp [hx]))]

/-- Claim C6: `Model.files(action)` is the pre-order flattening of the tree
(each directory's own files before its subdirectories' files, subdirectories
in insertion order), filtered by exact action match, with no filter meaning
all files. -/
theorem claim_c6_files_preorder :
    (∀ (action : Option String) (m : Model),
        m.files action = filesSpec action m.rootDirectory)
    ∧ (∀ (a : String) (m : Model),
        m.files (some a) = (m.files none).filter (fun f => f.action == a)) :=
  ⟨fun action m => filesD_eq_spec action m.rootDirectory,
   fun a m => filesD_filter a m.rootDirectory⟩

/-! ### Claim C7 — directory listings are sorted by bare name -/

theorem dirsDs_eq_flatten (action : Option String) (ds : List Directory) :
    Model.dirsDs action ds = (ds.map (Model.dirsD action)).flatten := by
  induction ds with
  | nil => rfl
  | cons d ds ih => rw [Model.dirsDs, ih, List.map_cons, List.flatten_cons]

theorem dwfDs_eq_flatten (action : Option String) (ds : List Directory) :
    Model.dwfDs action ds = (ds.map (Model.dwfD action)).flatten := by
  induction ds with
  | nil => rfl
  | cons d ds ih => rw [Model.dwfDs, ih, List.map_cons, List.flatten_cons]

/-- `_directoriesWithFiles` is the pre-order directory list filtered by
"has at least one file matching the action filter". -/
theorem dwfD_eq_filter (action : Option String) :
    ∀ d, Model.dwfD action d =
      (Model.dirsD none d).filter
        (fun x => decide (0 < (x.filesByAction action).length)) := by
  intro d
  induction d using Directory.ind with
  | h p a fs subs ih =>
    rw [Model.dwfD, Model.dirsD, dwfDs_eq_flatten, dirsDs_eq_flatten]
    simp only [List.singleton_append, List.filter_cons]
    by_cases h : 0 < ((Directory.mk p a fs subs).filesByAction action).length
    · rw [if_pos h, if_pos (by simpa using h), List.singleton_append]
      congr 1
      rw [List.filter_flatten]
      congr 1
      rw [List.map_map]
      exact List.map_congr_left (fun c hc => ih c hc)
    · rw [if_neg h, if_neg (by simpa using h), List.nil_append]
      rw [List.filter_flatten]
      congr 1
      rw [List.map_map]
      exact List.map_congr_left (fun c hc => ih c hc)

/-- A tree holding `/b/` and `/b/a/`: in bare-name order the deeper `/b/a/`
(name `a`) comes before its parent `/b/` (name `b`), so the output is not
sorted by full path. -/
def nameOrderModel : Model :=
  ⟨Directory.mk "/" "none" []
    [Directory.mk "/b/" "none" [] [Directory.mk "/b/a/" "none" [] []]],
   "", "", ""⟩

/-- Claim C7: `directories(action)` and `directoriesWithFiles(action)` are
sorted ascending by bare name (not by full path — on a tree with `/b/` and
`/b/a/` the output order is `/`, `/b/a/`, `/b/`), and a directory is in
`directoriesWithFiles(action)` iff it has at least one file matching the
action filter, regardless of its own action attribute. -/
theorem claim_c7_directories_sorted_by_name :
    (∀ (m : Model) (action : Option String),
        (m.directories action).Sorted dirLE
        ∧ (m.directoriesWithFiles action).Sorted dirLE)
    ∧ (∀ (m : Model) (action : Option String) (d : Directory),
        d ∈ m.directoriesWithFiles action ↔
          d ∈ Model.dirsD none m.rootDirectory
            ∧ 0 < (d.filesByAction action).length)
    ∧ (nameOrderModel.directories none).map Directory.path = ["/", "/b/a/", "/b/"] := by
  refine ⟨fun m action => ⟨?_, ?_⟩, fun m action d => ?_, by decide⟩
  · exact List.sorted_insertionSort dirLE (Model.dirsD action m.rootDirectory)
  · exact List.sorted_insertionSort dirLE (Model.dwfD action m.rootDirectory)
  · rw [Model.directoriesWithFiles,
      (List.perm_insertionSort dirLE (Model.dwfD action m.rootDirectory)).mem_iff,
      dwfD_eq_filter, List.mem_filter]
    simp

/-! ### Claim C8 — addFile keeps the file list sorted -/

theorem addFile_files (d : Directory) (f : File) :
    (d.addFile f).files = List.insertionSort fileLE (d.files ++ [f]) := by
  cases d
  rfl

theorem foldl_addFile_sorted (l : List File) :
    ∀ (d : Directory) (f : File),
      ((List.foldl Directory.addFile (d.addFile f) l).files).Sorted fileLE := by
  induction l with
  | nil =>
    intro d f
    rw [List.foldl_nil, addFile_files]
    exact List.sorted_insertionSort fileLE (d.files ++ [f])
  | cons g gs ih =>
    intro d f
    rw [List.foldl_cons]
    exact ih (d.addFile f) g

/-- Claim C8: after every `Directory.addFile` call the directory's file list
is sorted by name ascending (and is a permutation of the previous list with
the new file appended), and the sortedness invariant holds after any
non-empty sequence of insertions starting from an arbitrary directory. -/
theorem claim_c8_addFile_sorted :
    (∀ (d : Directory) (f : File),
        ((d.addFile f).files).Sorted fileLE
        ∧ ((d.addFile f).files).Perm (d.files ++ [f]))
    ∧ (∀ (d : Directory) (l : List File), l ≠ [] →
        ((List.foldl Directory.addFile d l).files).Sorted fileLE) := by
  constructor
  · intro d f
    rw [addFile_files]
    exact ⟨List.sorted_insertionSort fileLE (d.files ++ [f]),
      List.perm_insertionSort fileLE (d.files ++ [f])⟩
  · intro d l hl
    match l with
    | [] => exact absurd rfl hl
    | f :: fs =>
      rw [List.foldl_cons]
      exact foldl_addFile_sorted fs d f

/-- Witness for C8: a concrete two-element insertion sequence ends sorted. -/
theorem claim_c8_addFile_sorted_witness :
    ((List.foldl Directory.addFile (Directory.mk "/" "none" [] [])
      [⟨"b.txt", "added", none, none, none⟩,
       ⟨"a.txt", "added", none, none, none⟩]).files).Sorted fileLE :=
  claim_c8_addFile_sorted.2 (Directory.mk "/" "none" [] [])
    [⟨"b.txt", "added", none, none, none⟩,
     ⟨"a.txt", "added", none, none, none⟩] (by decide)

/-! ### Properties of the path splitter -/

theorem splitChar_ne_nil (sep : Char) (l : List Char) : splitChar sep l ≠ [] := by
  cases l with
  | nil => simp [splitChar]
  | cons c rest =>
    rw [splitChar]
    cases h : splitChar sep rest with
    | nil => simp
    | cons s ss =>
      by_cases hc : c = sep
      · simp [hc]
      · simp [hc]

/-- Splitting a concatenation at an explicit separator splits each half. -/
theorem splitChar_append (sep : Char) (a b : List Char) :
    splitChar sep (a ++ sep :: b) = splitChar sep a ++ splitChar sep b := by
  induction a with
  | nil =>
    rw [List.nil_append, splitChar]
    cases h : splitChar sep b with
    | nil => exact absurd h (splitChar_ne_nil sep b)
    | cons s ss => simp [splitChar, h]
  | cons c as ih =>
    rw [List.cons_append, splitChar, ih, splitChar]
    cases h : splitChar sep as with
    | nil => exact absurd h (splitChar_ne_nil sep as)
    | cons s ss =>
      by_cases hc : c = sep
      · simp [h, hc]
      · simp [h, hc]

/-- A separator-free list splits into itself. -/
theorem splitChar_of_not_mem (sep : Char) (a : List Char) (h : sep ∉ a) :
    splitChar sep a = [a] := by
  induction a with
  | nil => rfl
  | cons c as ih =>
    have hc : c ≠ sep := fun hcc => h (hcc ▸ List.mem_cons_self c as)
    rw [splitChar, ih (fun hm => h (List.mem_cons_of_mem c hm))]
    simp [hc]

theorem splitChar_concat_sep (sep : Char) (a : List Char) :
    splitChar sep (a ++ [sep]) = splitChar sep a ++ [[]] := by
  have := splitChar_append sep a []
  simpa [splitChar] using this

/-- No piece produced by the splitter contains the separator. -/
theorem splitChar_no_sep (sep : Char) (l : List Char) :
    ∀ piece ∈ splitChar sep l, sep ∉ piece := by
  induction l with
  | nil =>
    intro piece h
    rw [splitChar, List.mem_singleton] at h
    subst h
    simp
  | cons c rest ih =>
    intro piece h
    cases hs : splitChar sep rest with
    | nil => exact absurd hs (splitChar_ne_nil sep rest)
    | cons s ss =>
      simp only [splitChar, hs] at h
      by_cases hc : c = sep
      · rw [if_pos hc, List.mem_cons] at h
        rcases h with h | h
        · subst h; simp
        · exact ih piece (hs ▸ h)
      · rw [if_neg hc, List.mem_cons] at h
        rcases h with h | h
        · subst h
          intro hmem
          rcases List.mem_cons.mp hmem with h2 | h2
          · exact hc h2.symm
          · exact ih s (hs ▸ List.mem_cons_self s ss) h2
        · exact ih piece (hs ▸ List.mem_cons_of_mem s h)

/-- Splitting undoes joining for nonempty, separator-free piece lists. -/
theorem splitChar_joinChar (sep : Char) :
    ∀ pieces : List (List Char), pieces ≠ [] → (∀ x ∈ pieces, sep ∉ x) →
      splitChar sep (joinChar sep pieces) = pieces := by
  intro pieces
  induction pieces with
  | nil => intro h; exact absurd rfl h
  | cons x rest ih =>
    intro _ hfree
    cases rest with
    | nil =>
      rw [joinChar]
      exact splitChar_of_not_mem sep x (hfree x (List.mem_cons_self x []))
    | cons y ys =>
      rw [joinChar, splitChar_append,
        splitChar_of_not_mem sep x (hfree x (List.mem_cons_self x (y :: ys))),
        ih (by simp) (fun z hz => hfree z (List.mem_cons_of_mem x hz))]
      rfl

/-! ### The structural invariant of model-built trees -/

/-- A well-formed path segment: nonempty and slash-free (exactly the
non-blank pieces `Model.directory` walks over). -/
def segOk (s : String) : Prop := s ≠ "" ∧ '/' ∉ s.data

/-- Every segment of the list is well-formed. -/
def SegsOk (segs : List String) : Prop := ∀ s ∈ segs, segOk s

mutual

/-- Invariant of trees built by the model: the path is nonempty and ends
with a slash, subdirectory names are distinct, and every child's path
extends the parent's path by one well-formed segment. -/
def Directory.inv : Directory → Prop
  | .mk p _ _ subs =>
    p.data ≠ [] ∧ p.data.getLast? = some '/' ∧
    ((subs.map Directory.name).Nodup ∧
      (∀ c ∈ subs, ∃ s, segOk s ∧ c.path = p ++ s ++ "/") ∧ invList subs)

/-- The invariant for each directory of a list. -/
def invList : List Directory → Prop
  | [] => True
  | c :: cs => Directory.inv c ∧ invList cs

end

theorem invList_iff (l : List Directory) :
    invList l ↔ ∀ c ∈ l, Directory.inv c := by
  induction l with
  | nil => simp [invList]
  | cons c cs ih => simp [invList, ih]

theorem inv_mk (p a : String) (fs : List File) (subs : List Directory) :
    Directory.inv (Directory.mk p a fs subs) ↔
      (p.data ≠ [] ∧ p.data.getLast? = some '/' ∧
        ((subs.map Directory.name).Nodup ∧
          (∀ c ∈ subs, ∃ s, segOk s ∧ c.path = p ++ s ++ "/") ∧
          (∀ c ∈ subs, Directory.inv c))) := by
  rw [Directory.inv, invList_iff]

/-- The name of a directory whose path extends a slash-terminated parent
path by one well-formed segment is that segment. -/
theorem name_of_extended (d : Directory) (p s : String)
    (hp : p.data.getLast? = some '/') (hs : segOk s)
    (hpath : d.path = p ++ s ++ "/") : d.name = s := by
  obtain ⟨pd, hpd⟩ : ∃ pd, p.data = pd ++ ['/'] := by
    have hne : p.data ≠ [] := by
      intro hc
      rw [hc] at hp
      simp at hp
    refine ⟨p.data.dropLast, ?_⟩
    have := List.dropLast_append_getLast hne
    rw [List.getLast?_eq_getLast p.data hne] at hp
    rw [Option.some.injEq] at hp
    rw [hp] at this
    exact this.symm
  have hsne : s.data ≠ [] := by
    intro hc
    exact hs.1 ((strData_eq_iff s "").mpr (by simpa using hc))
  have hdata : d.path.data = pd ++ '/' :: (s.data ++ ['/']) := by
    rw [hpath, strData_append, strData_append, hpd]
    simp [strData_eq_iff]
  have hsplit : splitChar '/' d.path.data =
      splitChar '/' pd ++ [s.data, []] := by
    rw [hdata, splitChar_append, splitChar_concat_sep,
      splitChar_of_not_mem '/' s.data hs.2]
    rfl
  have hne_root : d.path ≠ "/" := by
    intro hc
    have hlen : d.path.data.length = 1 := by
      rw [hc]
      rfl
    have hpos : 0 < s.data.length := List.length_pos.mpr hsne
    rw [hdata] at hlen
    simp [List.length_append] at hlen
    omega
  rw [Directory.name, if_neg hne_root, pySplit, hsplit]
  rw [List.map_append, List.reverse_append]
  have hmap : (List.map (fun l => (⟨l⟩ : String)) [s.data, []]).reverse =
      ["", s] := rfl
  rw [hmap]
  rfl

/-- The name only depends on the path. -/
theorem name_congr {d e : Directory} (h : d.path = e.path) : d.name = e.name := by
  rw [Directory.name, Directory.name, h]

/-! ### Lookup and replacement of subdirectories -/

theorem subdirectory_mk (p a : String) (fs : List File) (subs : List Directory)
    (n : String) :
    (Directory.mk p a fs subs).subdirectory n =
      subs.find? (fun c => c.name == n) := rfl

theorem find?_decomp {α : Type} {p : α → Bool} :
    ∀ {l : List α} {c : α}, l.find? p = some c →
      ∃ l1 l2, l = l1 ++ c :: l2 ∧ (∀ y ∈ l1, p y = false) ∧ p c = true := by
  intro l
  induction l with
  | nil => intro c h; simp at h
  | cons x xs ih =>
    intro c h
    cases hx : p x with
    | true =>
      rw [List.find?_cons_of_pos _ hx, Option.some.injEq] at h
      subst h
      exact ⟨[], xs, rfl, by simp, hx⟩
    | false =>
      rw [List.find?_cons_of_neg _ (by simp [hx])] at h
      obtain ⟨l1, l2, rfl, h1, h2⟩ := ih h
      refine ⟨x :: l1, l2, rfl, ?_, h2⟩
      intro y hy
      rcases List.mem_cons.mp hy with rfl | hy2
      · exact hx
      · exact h1 y hy2

theorem find?_prepend {α : Type} {p : α → Bool} {l1 : List α} {x : α}
    (l2 : List α) (h1 : ∀ y ∈ l1, p y = false) (hx : p x = true) :
    (l1 ++ x :: l2).find? p = some x := by
  induction l1 with
  | nil => rw [List.nil_append, List.find?_cons_of_pos _ hx]
  | cons y ys ih =>
    rw [List.cons_append,
      List.find?_cons_of_neg _ (by simp [h1 y (List.mem_cons_self y ys)])]
    exact ih (fun z hz => h1 z (List.mem_cons_of_mem y hz))

theorem replaceFirstSub_decomp (seg : String) (x : Directory)
    {l1 l2 : List Directory} {c : Directory}
    (h1 : ∀ y ∈ l1, (y.name == seg) = false) (hc : (c.name == seg) = true) :
    replaceFirstSub seg x (l1 ++ c :: l2) = l1 ++ x :: l2 := by
  induction l1 with
  | nil =>
    rw [List.nil_append, replaceFirstSub, if_pos hc]
    rfl
  | cons y ys ih =>
    rw [List.cons_append, replaceFirstSub,
      if_neg (by simp [h1 y (List.mem_cons_self y ys)])]
    rw [ih (fun z hz => h1 z (List.mem_cons_of_mem y hz))]
    rfl

/-! ### The walking loop preserves the tree structure -/

/-- `upd` only changes the files of the directory it is applied to (true of
`id` and of `addFile`). -/
def updOk (upd : Directory → Directory) : Prop :=
  ∀ d, (upd d).path = d.path ∧ (upd d).subdirectories = d.subdirectories

theorem updOk_id : updOk id := fun _ => ⟨rfl, rfl⟩

theorem updOk_addFile (f : File) : updOk (fun d => d.addFile f) := by
  intro d
  cases d
  exact ⟨rfl, rfl⟩

theorem walkSegs_fst_path (upd : Directory → Directory) (hupd : updOk upd) :
    ∀ (segs : List String) (d : Directory),
      ((walkSegs upd d segs).1).path = d.path := by
  intro segs
  induction segs with
  | nil => intro d; exact (hupd d).1
  | cons seg rest ih =>
    intro d
    rw [walkSegs]
    by_cases hseg : seg = ""
    · rw [if_pos hseg]
      exact ih d
    · rw [if_neg hseg]
      cases hsub : d.subdirectory seg with
      | some child => rfl
      | none => rfl

/-- The path of the directory node the walk returns. -/
def joinSegs : List String → String
  | [] => ""
  | s :: rest => s ++ "/" ++ joinSegs rest

theorem strAppend_empty (s : String) : s ++ "" = s := by
  rw [strData_eq_iff, strData_append]
  simp [show ("" : String).data = [] from rfl]

theorem inv_congr {d e : Directory} (hp : d.path = e.path)
    (hs : d.subdirectories = e.subdirectories) (h : Directory.inv e) :
    Directory.inv d := by
  cases d with
  | mk p a fs subs =>
    cases e with
    | mk p2 a2 fs2 subs2 =>
      simp only [Directory.path_mk, Directory.subdirectories_mk] at hp hs
      subst hp
      subst hs
      rw [inv_mk] at h ⊢
      exact h

/-- The invariant of a freshly created directory node. -/
theorem inv_newdir (p seg : String) (hpl : p.data.getLast? = some '/')
    (hs : segOk seg) :
    Directory.inv (Directory.mk (p ++ seg ++ "/") "none" [] []) := by
  rw [inv_mk]
  refine ⟨?_, ?_, by simp, by simp, by simp⟩
  · rw [strData_append]
    simp
  · rw [strData_append]
    exact List.getLast?_concat _

/-- The subdirectory found by name, under the invariant, has the segment as
its name and the extended path. -/
theorem subdirectory_inv_path {p a : String} {fs : List File}
    {subs : List Directory} {seg : String} {child : Directory}
    (hinv : Directory.inv (Directory.mk p a fs subs))
    (hsub : (Directory.mk p a fs subs).subdirectory seg = some child) :
    child ∈ subs ∧ child.path = p ++ seg ++ "/" := by
  rw [inv_mk] at hinv
  obtain ⟨_, hpl, _, hext, _⟩ := hinv
  rw [subdirectory_mk] at hsub
  have hmem : child ∈ subs := List.mem_of_find?_eq_some hsub
  have hcname : child.name = seg := by
    have := List.find?_some hsub
    exact beq_iff_eq.mp this
  obtain ⟨s, hsok, hspath⟩ := hext child hmem
  have hsname : child.name = s := name_of_extended child p s hpl hsok hspath
  refine ⟨hmem, ?_⟩
  rw [hspath, ← hsname, hcname]

theorem walkSegs_snd_path (upd : Directory → Directory) (hupd : updOk upd) :
    ∀ (segs : List String) (d : Directory), Directory.inv d → SegsOk segs →
      ((walkSegs upd d segs).2).path = d.path ++ joinSegs segs := by
  intro segs
  induction segs with
  | nil =>
    intro d _ _
    rw [walkSegs, joinSegs]
    rw [show (upd d, upd d).2 = upd d from rfl, (hupd d).1,
      strAppend_empty]
  | cons seg rest ih =>
    intro d hinv hok
    have hsegok : segOk seg := hok seg (List.mem_cons_self seg rest)
    have hrestok : SegsOk rest := fun s hs => hok s (List.mem_cons_of_mem seg hs)
    rw [walkSegs, if_neg hsegok.1]
    cases d with
    | mk p a fs subs =>
      have hinv2 := (inv_mk p a fs subs).mp hinv
      obtain ⟨hp0, hpl, hnodup, hext, hsubinv⟩ := hinv2
      cases hsub : (Directory.mk p a fs subs).subdirectory seg with
      | some child =>
        obtain ⟨hmem, hchildpath⟩ := subdirectory_inv_path hinv hsub
        show ((walkSegs upd child rest).2).path = _
        rw [ih child (hsubinv child hmem) hrestok, hchildpath, joinSegs]
        rw [strData_eq_iff]
        simp [strData_append, List.append_assoc, Directory.path_mk]
      | none =>
        show ((walkSegs upd (Directory.mk (p ++ seg ++ "/") "none" [] []) rest).2).path = _
        rw [ih _ (inv_newdir p seg hpl hsegok) hrestok, Directory.path_mk, joinSegs]
        rw [strData_eq_iff]
        simp [strData_append, List.append_assoc, Directory.path_mk]

/-- Walking preserves the invariant. -/
theorem walkSegs_inv (upd : Directory → Directory) (hupd : updOk upd) :
    ∀ (segs : List String) (d : Directory), Directory.inv d → SegsOk segs →
      Directory.inv ((walkSegs upd d segs).1) := by
  intro segs
  induction segs with
  | nil =>
    intro d hinv _
    rw [walkSegs]
    exact inv_congr (hupd d).1 (hupd d).2 hinv
  | cons seg rest ih =>
    intro d hinv hok
    have hsegok : segOk seg := hok seg (List.mem_cons_self seg rest)
    have hrestok : SegsOk rest := fun s hs => hok s (List.mem_cons_of_mem seg hs)
    rw [walkSegs, if_neg hsegok.1]
    cases d with
    | mk p a fs subs =>
      have hinv2 := (inv_mk p a fs subs).mp hinv
      obtain ⟨hp0, hpl, hnodup, hext, hsubinv⟩ := hinv2
      cases hsub : (Directory.mk p a fs subs).subdirectory seg with
      | some child =>
        obtain ⟨hmem, hchildpath⟩ := subdirectory_inv_path hinv hsub
        obtain ⟨l1, l2, hsplit, hl1, hcbeq⟩ :=
          find?_decomp (by rw [subdirectory_mk] at hsub; exact hsub)
        have hc2path : ((walkSegs upd child rest).1).path = child.path :=
          walkSegs_fst_path upd hupd rest child
        have hc2name : ((walkSegs upd child rest).1).name = child.name :=
          name_congr hc2path
        show Directory.inv (Directory.mk p a fs
          (replaceFirstSub seg (walkSegs upd child rest).1 subs))
        rw [hsplit, replaceFirstSub_decomp seg _ hl1 hcbeq]
        rw [inv_mk]
        refine ⟨hp0, hpl, ?_, ?_, ?_⟩
        · have hmapeq : List.map Directory.name (l1 ++ (walkSegs upd child rest).1 :: l2)
              = List.map Directory.name (l1 ++ child :: l2) := by
            rw [List.map_append, List.map_append, List.map_cons, List.map_cons, hc2name]
          rw [hmapeq, ← hsplit]
          exact hnodup
        · intro c hc
          rcases List.mem_append.mp hc with hc1 | hc1
          · exact hext c (hsplit ▸ List.mem_append.mpr (Or.inl hc1))
          · rcases List.mem_cons.mp hc1 with rfl | hc2
            · obtain ⟨s, hsok, hspath⟩ :=
                hext child (hsplit ▸ List.mem_append.mpr (Or.inr (List.mem_cons_self _ _)))
              exact ⟨s, hsok, by rw [hc2path, hspath]⟩
            · exact hext c (hsplit ▸ List.mem_append.mpr (Or.inr (List.mem_cons_of_mem _ hc2)))
        · intro c hc
          rcases List.mem_append.mp hc with hc1 | hc1
          · exact hsubinv c (hsplit ▸ List.mem_append.mpr (Or.inl hc1))
          · rcases List.mem_cons.mp hc1 with rfl | hc2
            · exact ih child (hsubinv child hmem) hrestok
            · exact hsubinv c (hsplit ▸ List.mem_append.mpr (Or.inr (List.mem_cons_of_mem _ hc2)))
      | none =>
        have hnone : ∀ y ∈ subs, (y.name == seg) = false := by
          intro y hy
          rw [subdirectory_mk] at hsub
          have := List.find?_eq_none.mp hsub y hy
          simpa using this
        have hnewinv : Directory.inv (Directory.mk (p ++ seg ++ "/") "none" [] []) :=
          inv_newdir p seg hpl hsegok
        have hc2path : ((walkSegs upd (Directory.mk (p ++ seg ++ "/") "none" [] []) rest).1).path
            = p ++ seg ++ "/" :=
          walkSegs_fst_path upd hupd rest _
        have hc2name : ((walkSegs upd (Directory.mk (p ++ seg ++ "/") "none" [] []) rest).1).name
            = seg :=
          name_of_extended _ p seg hpl hsegok hc2path
        show Directory.inv (Directory.mk p a fs
          (subs ++ [(walkSegs upd (Directory.mk (p ++ seg ++ "/") "none" [] []) rest).1]))
        rw [inv_mk]
        refine ⟨hp0, hpl, ?_, ?_, ?_⟩
        · rw [List.map_append, List.map_cons, List.map_nil]
          rw [List.nodup_append]
          refine ⟨hnodup, by simp, ?_⟩
          intro x hx
          rw [hc2name]
          simp only [List.mem_singleton]
          obtain ⟨y, hy, hyname⟩ := List.mem_map.mp hx
          intro hcon
          have : (y.name == seg) = true := by
            rw [beq_iff_eq, hyname, hcon]
          rw [hnone y hy] at this
          exact Bool.false_ne_true this
        · intro c hc
          rcases List.mem_append.mp hc with hc1 | hc1
          · exact hext c hc1
          · rcases List.mem_singleton.mp hc1 with rfl
            exact ⟨seg, hsegok, hc2path⟩
        · intro c hc
          rcases List.mem_append.mp hc with hc1 | hc1
          · exact hsubinv c hc1
          · rcases List.mem_singleton.mp hc1 with rfl
            exact ih _ hnewinv hrestok

/-- Walking the same segments again with `id` changes nothing and returns
the same node: a repeated `Model.directory` call returns the existing
directory instead of creating a new one. -/
theorem walkSegs_idem :
    ∀ (segs : List String) (d : Directory), Directory.inv d → SegsOk segs →
      walkSegs id ((walkSegs id d segs).1) segs = walkSegs id d segs := by
  intro segs
  induction segs with
  | nil => intro d _ _; rfl
  | cons seg rest ih =>
    intro d hinv hok
    have hsegok : segOk seg := hok seg (List.mem_cons_self seg rest)
    have hrestok : SegsOk rest := fun s hs => hok s (List.mem_cons_of_mem seg hs)
    cases d with
    | mk p a fs subs =>
      have hinv2 := (inv_mk p a fs subs).mp hinv
      obtain ⟨hp0, hpl, hnodup, hext, hsubinv⟩ := hinv2
      cases hsub : (Directory.mk p a fs subs).subdirectory seg with
      | some child =>
        obtain ⟨hmem, hchildpath⟩ := subdirectory_inv_path hinv hsub
        obtain ⟨l1, l2, hsplit, hl1, hcbeq⟩ :=
          find?_decomp (by rw [subdirectory_mk] at hsub; exact hsub)
        have hc2beq : (((walkSegs id child rest).1).name == seg) = true := by
          rw [name_congr (walkSegs_fst_path id updOk_id rest child)]
          exact hcbeq
        have hstep1 : walkSegs id (Directory.mk p a fs subs) (seg :: rest) =
            (Directory.mk p a fs (l1 ++ (walkSegs id child rest).1 :: l2),
             (walkSegs id child rest).2) := by
          rw [walkSegs, if_neg hsegok.1, hsub]
          show (Directory.mk p a fs
              (replaceFirstSub seg (walkSegs id child rest).1 subs),
            (walkSegs id child rest).2) = _
          rw [hsplit, replaceFirstSub_decomp seg _ hl1 hcbeq]
        have hfind2 : (Directory.mk p a fs
            (l1 ++ (walkSegs id child rest).1 :: l2)).subdirectory seg =
            some (walkSegs id child rest).1 := by
          rw [subdirectory_mk]
          exact find?_prepend l2 hl1 hc2beq
        have hih : walkSegs id ((walkSegs id child rest).1) rest =
            walkSegs id child rest := ih child (hsubinv child hmem) hrestok
        have hstep2 : walkSegs id (Directory.mk p a fs
            (l1 ++ (walkSegs id child rest).1 :: l2)) (seg :: rest) =
            (Directory.mk p a fs (l1 ++ (walkSegs id child rest).1 :: l2),
             (walkSegs id child rest).2) := by
          rw [walkSegs, if_neg hsegok.1, hfind2]
          show (Directory.mk p a fs
              (replaceFirstSub seg (walkSegs id ((walkSegs id child rest).1) rest).1
                (l1 ++ (walkSegs id child rest).1 :: l2)),
            (walkSegs id ((walkSegs id child rest).1) rest).2) = _
          rw [hih, replaceFirstSub_decomp seg _ hl1 hc2beq]
        rw [hstep1]
        exact hstep2
      | none =>
        have hnone : ∀ y ∈ subs, (y.name == seg) = false := by
          intro y hy
          rw [subdirectory_mk] at hsub
          have := List.find?_eq_none.mp hsub y hy
          simpa using this
        have hnewinv : Directory.inv (Directory.mk (p ++ seg ++ "/") "none" [] []) :=
          inv_newdir p seg hpl hsegok
        have hc2path : ((walkSegs id (Directory.mk (p ++ seg ++ "/") "none" [] []) rest).1).path
            = p ++ seg ++ "/" :=
          walkSegs_fst_path id updOk_id rest
            (Directory.mk (p ++ seg ++ "/") "none" [] [])
        have hc2beq : (((walkSegs id (Directory.mk (p ++ seg ++ "/") "none" [] []) rest).1).name
            == seg) = true := by
          rw [name_of_extended _ p seg hpl hsegok hc2path]
          exact beq_self_eq_true seg
        have hstep1 : walkSegs id (Directory.mk p a fs subs) (seg :: rest) =
            (Directory.mk p a fs
              (subs ++ [(walkSegs id (Directory.mk (p ++ seg ++ "/") "none" [] []) rest).1]),
             (walkSegs id (Directory.mk (p ++ seg ++ "/") "none" [] []) rest).2) := by
          rw [walkSegs, if_neg hsegok.1, hsub]
          rfl
        have hfind2 : (Directory.mk p a fs
            (subs ++ [(walkSegs id (Directory.mk (p ++ seg ++ "/") "none" [] []) rest).1])).subdirectory
              seg =
            some (walkSegs id (Directory.mk (p ++ seg ++ "/") "none" [] []) rest).1 := by
          rw [subdirectory_mk]
          exact find?_prepend [] hnone hc2beq
        have hih : walkSegs id
            ((walkSegs id (Directory.mk (p ++ seg ++ "/") "none" [] []) rest).1) rest =
            walkSegs id (Directory.mk (p ++ seg ++ "/") "none" [] []) rest :=
          ih _ hnewinv hrestok
        have hstep2 : walkSegs id (Directory.mk p a fs
            (subs ++ [(walkSegs id (Directory.mk (p ++ seg ++ "/") "none" [] []) rest).1]))
            (seg :: rest) =
            (Directory.mk p a fs
              (subs ++ [(walkSegs id (Directory.mk (p ++ seg ++ "/") "none" [] []) rest).1]),
             (walkSegs id (Directory.mk (p ++ seg ++ "/") "none" [] []) rest).2) := by
          rw [walkSegs, if_neg hsegok.1, hfind2]
          show (Directory.mk p a fs
              (replaceFirstSub seg
                (walkSegs id
                  ((walkSegs id (Directory.mk (p ++ seg ++ "/") "none" [] []) rest).1) rest).1
                (subs ++ [(walkSegs id (Directory.mk (p ++ seg ++ "/") "none" [] []) rest).1])),
            (walkSegs id
              ((walkSegs id (Directory.mk (p ++ seg ++ "/") "none" [] []) rest).1) rest).2) = _
          rw [hih, replaceFirstSub_decomp seg _ hnone hc2beq]
        rw [hstep1]
        exact hstep2

/-! ### Path uniqueness: one directory per distinct path -/

mutual

/-- All directory paths in the tree, in pre-order. -/
def Directory.allPaths : Directory → List String
  | .mk p _ _ subs => p :: pathsList subs

/-- The paths of a list of trees. -/
def pathsList : List Directory → List String
  | [] => []
  | c :: cs => c.allPaths ++ pathsList cs

end

theorem pathsList_eq_flatten (l : List Directory) :
    pathsList l = (l.map Directory.allPaths).flatten := by
  induction l with
  | nil => rfl
  | cons c cs ih => rw [pathsList, ih, List.map_cons, List.flatten_cons]

theorem mem_pathsList {q : String} {l : List Directory}
    (h : q ∈ pathsList l) : ∃ c ∈ l, q ∈ c.allPaths := by
  induction l with
  | nil => rw [pathsList] at h; exact absurd h (List.not_mem_nil q)
  | cons c cs ih =>
    rw [pathsList, List.mem_append] at h
    rcases h with h | h
    · exact ⟨c, List.mem_cons_self c cs, h⟩
    · obtain ⟨e, he, hq⟩ := ih h
      exact ⟨e, List.mem_cons_of_mem c he, hq⟩

/-- Every path in the subtree extends the subtree root's path. -/
theorem allPaths_extend : ∀ d, Directory.inv d → ∀ q ∈ d.allPaths,
    ∃ t, q.data = d.path.data ++ t := by
  intro d
  induction d using Directory.ind with
  | h p a fs subs ih =>
    intro hinv q hq
    rw [inv_mk] at hinv
    obtain ⟨_, hpl, _, hext, hsubinv⟩ := hinv
    rw [Directory.allPaths] at hq
    rcases List.mem_cons.mp hq with rfl | hq2
    · exact ⟨[], by simp [Directory.path_mk]⟩
    · obtain ⟨c, hc, hqc⟩ := mem_pathsList hq2
      obtain ⟨s, hsok, hspath⟩ := hext c hc
      obtain ⟨t, ht⟩ := ih c hc (hsubinv c hc) q hqc
      refine ⟨s.data ++ '/' :: t, ?_⟩
      rw [ht, hspath, strData_append, strData_append]
      simp [Directory.path_mk, List.append_assoc]

/-- Two slash-free lists followed by a slash marker agree when one
marked extension equals the other. -/
theorem marker_eq : ∀ {a b t1 t2 : List Char}, '/' ∉ a → '/' ∉ b →
    a ++ '/' :: t1 = b ++ '/' :: t2 → a = b := by
  intro a
  induction a with
  | nil =>
    intro b t1 t2 _ hb h
    cases b with
    | nil => rfl
    | cons y bs =>
      rw [List.nil_append, List.cons_append, List.cons.injEq] at h
      exact absurd (h.1 ▸ List.mem_cons_self y bs) hb
  | cons x as ih =>
    intro b t1 t2 ha hb h
    cases b with
    | nil =>
      rw [List.nil_append, List.cons_append, List.cons.injEq] at h
      exact absurd (h.1.symm ▸ List.mem_cons_self x as) ha
    | cons y bs =>
      rw [List.cons_append, List.cons_append, List.cons.injEq] at h
      rw [h.1, ih (fun hm => ha (List.mem_cons_of_mem x hm))
        (fun hm => hb (List.mem_cons_of_mem y hm)) h.2]

/-- Under the invariant all paths in the tree are distinct: the tree holds
exactly one directory per path. -/
theorem allPaths_nodup : ∀ d, Directory.inv d → d.allPaths.Nodup := by
  intro d
  induction d using Directory.ind with
  | h p a fs subs ih =>
    intro hinv
    rw [inv_mk] at hinv
    obtain ⟨hp0, hpl, hnodup, hext, hsubinv⟩ := hinv
    rw [Directory.allPaths, List.nodup_cons]
    constructor
    · intro hp
      obtain ⟨c, hc, hqc⟩ := mem_pathsList hp
      obtain ⟨s, hsok, hspath⟩ := hext c hc
      obtain ⟨t, ht⟩ := allPaths_extend c (hsubinv c hc) p hqc
      rw [hspath, strData_append, strData_append] at ht
      have hlen := congrArg List.length ht
      simp [List.length_append] at hlen
    · rw [pathsList_eq_flatten, List.nodup_flatten]
      constructor
      · intro l hl
        obtain ⟨c, hc, rfl⟩ := List.mem_map.mp hl
        exact ih c hc (hsubinv c hc)
      · have hpair : subs.Pairwise (fun c1 c2 => c1.name ≠ c2.name) :=
          List.pairwise_map.mp hnodup
        refine List.pairwise_map.mpr ?_
        refine List.Pairwise.imp_of_mem ?_ hpair
        intro c1 c2 hc1 hc2 hneq
        intro q hq1 hq2
        obtain ⟨s1, hs1ok, hs1path⟩ := hext c1 hc1
        obtain ⟨s2, hs2ok, hs2path⟩ := hext c2 hc2
        obtain ⟨t1, ht1⟩ := allPaths_extend c1 (hsubinv c1 hc1) q hq1
        obtain ⟨t2, ht2⟩ := allPaths_extend c2 (hsubinv c2 hc2) q hq2
        rw [hs1path, strData_append, strData_append] at ht1
        rw [hs2path, strData_append, strData_append] at ht2
        have he : p.data ++ (s1.data ++ '/' :: t1) = p.data ++ (s2.data ++ '/' :: t2) := by
      -- build both sides from ht1 and ht2
        -- placeholder, restructured below
          rw [show ("/" : String).data = ['/'] from rfl] at ht1 ht2
          rw [← List.append_assoc, ← List.append_assoc]
          rw [show p.data ++ s1.data ++ '/' :: t1 =
              (p.data ++ s1.data ++ ['/']) ++ t1 by simp, ← ht1]
          rw [show p.data ++ s2.data ++ '/' :: t2 =
              (p.data ++ s2.data ++ ['/']) ++ t2 by simp, ← ht2]
        have he2 : s1.data ++ '/' :: t1 = s2.data ++ '/' :: t2 :=
          List.append_cancel_left he
        have hs12 : s1.data = s2.data := marker_eq hs1ok.2 hs2ok.2 he2
        apply hneq
        rw [name_of_extended c1 p s1 hpl hs1ok hs1path,
          name_of_extended c2 p s2 hpl hs2ok hs2path]
        exact (strData_eq_iff s1 s2).mpr hs12

/-! ### Looking up a path that the walk has created -/

/-- Pure lookup of a (non-blank-free) segment path in the tree; `none` when
some segment is missing. -/
def findSegs (d : Directory) : List String → Option Directory
  | [] => some d
  | seg :: rest =>
    if seg = "" then findSegs d rest
    else
      match d.subdirectory seg with
      | some c => findSegs c rest
      | none => none

/-- After walking `segs1 ++ segs2`, every prefix `segs1` of the walked path
resolves in the resulting tree: the walk creates all missing ancestors. -/
theorem walkSegs_creates (upd : Directory → Directory) (hupd : updOk upd) :
    ∀ (segs1 segs2 : List String) (d : Directory), Directory.inv d →
      SegsOk (segs1 ++ segs2) →
      (findSegs ((walkSegs upd d (segs1 ++ segs2)).1) segs1).isSome = true := by
  intro segs1
  induction segs1 with
  | nil => intro segs2 d _ _; rfl
  | cons seg segs1' ih =>
    intro segs2 d hinv hok
    have hsegok : segOk seg := hok seg (List.mem_cons_self seg _)
    have hrestok : SegsOk (segs1' ++ segs2) := fun s hs =>
      hok s (List.mem_cons_of_mem seg hs)
    cases d with
    | mk p a fs subs =>
      have hinv2 := (inv_mk p a fs subs).mp hinv
      obtain ⟨hp0, hpl, hnodup, hext, hsubinv⟩ := hinv2
      rw [List.cons_append]
      cases hsub : (Directory.mk p a fs subs).subdirectory seg with
      | some child =>
        obtain ⟨hmem, hchildpath⟩ := subdirectory_inv_path hinv hsub
        obtain ⟨l1, l2, hsplit, hl1, hcbeq⟩ :=
          find?_decomp (by rw [subdirectory_mk] at hsub; exact hsub)
        have hc2beq : (((walkSegs upd child (segs1' ++ segs2)).1).name == seg) = true := by
          rw [name_congr (walkSegs_fst_path upd hupd (segs1' ++ segs2) child)]
          exact hcbeq
        have hstep : walkSegs upd (Directory.mk p a fs subs) (seg :: (segs1' ++ segs2)) =
            (Directory.mk p a fs (l1 ++ (walkSegs upd child (segs1' ++ segs2)).1 :: l2),
             (walkSegs upd child (segs1' ++ segs2)).2) := by
          rw [walkSegs, if_neg hsegok.1, hsub]
          show (Directory.mk p a fs
              (replaceFirstSub seg (walkSegs upd child (segs1' ++ segs2)).1 subs),
            (walkSegs upd child (segs1' ++ segs2)).2) = _
          rw [hsplit, replaceFirstSub_decomp seg _ hl1 hcbeq]
        rw [hstep]
        have hfind2 : (Directory.mk p a fs
            (l1 ++ (walkSegs upd child (segs1' ++ segs2)).1 :: l2)).subdirectory seg =
            some (walkSegs upd child (segs1' ++ segs2)).1 := by
          rw [subdirectory_mk]
          exact find?_prepend l2 hl1 hc2beq
        rw [findSegs, if_neg hsegok.1, hfind2]
        exact ih segs2 child (hsubinv child hmem) hrestok
      | none =>
        have hnone : ∀ y ∈ subs, (y.name == seg) = false := by
          intro y hy
          rw [subdirectory_mk] at hsub
          have := List.find?_eq_none.mp hsub y hy
          simpa using this
        have hnewinv : Directory.inv (Directory.mk (p ++ seg ++ "/") "none" [] []) :=
          inv_newdir p seg hpl hsegok
        have hc2path : ((walkSegs upd (Directory.mk (p ++ seg ++ "/") "none" [] [])
            (segs1' ++ segs2)).1).path = p ++ seg ++ "/" :=
          walkSegs_fst_path upd hupd (segs1' ++ segs2)
            (Directory.mk (p ++ seg ++ "/") "none" [] [])
        have hc2beq : (((walkSegs upd (Directory.mk (p ++ seg ++ "/") "none" [] [])
            (segs1' ++ segs2)).1).name == seg) = true := by
          rw [name_of_extended _ p seg hpl hsegok hc2path]
          exact beq_self_eq_true seg
        have hstep : walkSegs upd (Directory.mk p a fs subs) (seg :: (segs1' ++ segs2)) =
            (Directory.mk p a fs
              (subs ++ [(walkSegs upd (Directory.mk (p ++ seg ++ "/") "none" [] [])
                (segs1' ++ segs2)).1]),
             (walkSegs upd (Directory.mk (p ++ seg ++ "/") "none" [] [])
               (segs1' ++ segs2)).2) := by
          rw [walkSegs, if_neg hsegok.1, hsub]
          rfl
        rw [hstep]
        have hfind2 : (Directory.mk p a fs
            (subs ++ [(walkSegs upd (Directory.mk (p ++ seg ++ "/") "none" [] [])
              (segs1' ++ segs2)).1])).subdirectory seg =
            some (walkSegs upd (Directory.mk (p ++ seg ++ "/") "none" [] [])
              (segs1' ++ segs2)).1 := by
          rw [subdirectory_mk]
          exact find?_prepend [] hnone hc2beq
        rw [findSegs, if_neg hsegok.1, hfind2]
        exact ih segs2 _ hnewinv hrestok

/-- Blank segments are ignored by the walk ("Ignore blank parts"). -/
theorem walkSegs_filter_blank (upd : Directory → Directory) :
    ∀ (segs : List String) (d : Directory),
      walkSegs upd d segs = walkSegs upd d (segs.filter (fun s => s ≠ "")) := by
  intro segs
  induction segs with
  | nil => intro d; rfl
  | cons seg rest ih =>
    intro d
    by_cases h : seg = ""
    · rw [walkSegs, if_pos h, List.filter_cons, if_neg (by simp [h]), ih]
    · rw [List.filter_cons, if_pos (by simp [h])]
      cases hsub : d.subdirectory seg with
      | some child =>
        have e1 : walkSegs upd d (seg :: rest) =
            (Directory.mk d.path d.action d.files
              (replaceFirstSub seg (walkSegs upd child rest).1 d.subdirectories),
             (walkSegs upd child rest).2) := by
          rw [walkSegs, if_neg h, hsub]
        have e2 : walkSegs upd d (seg :: rest.filter (fun s => s ≠ "")) =
            (Directory.mk d.path d.action d.files
              (replaceFirstSub seg
                (walkSegs upd child (rest.filter (fun s => s ≠ ""))).1 d.subdirectories),
             (walkSegs upd child (rest.filter (fun s => s ≠ ""))).2) := by
          rw [walkSegs, if_neg h, hsub]
        rw [e1, e2, ih child]
      | none =>
        have e1 : walkSegs upd d (seg :: rest) =
            (Directory.mk d.path d.action d.files
              (d.subdirectories ++
                [(walkSegs upd (Directory.mk (d.path ++ seg ++ "/") "none" [] []) rest).1]),
             (walkSegs upd (Directory.mk (d.path ++ seg ++ "/") "none" [] []) rest).2) := by
          rw [walkSegs, if_neg h, hsub]
        have e2 : walkSegs upd d (seg :: rest.filter (fun s => s ≠ "")) =
            (Directory.mk d.path d.action d.files
              (d.subdirectories ++
                [(walkSegs upd (Directory.mk (d.path ++ seg ++ "/") "none" [] [])
                  (rest.filter (fun s => s ≠ ""))).1]),
             (walkSegs upd (Directory.mk (d.path ++ seg ++ "/") "none" [] [])
               (rest.filter (fun s => s ≠ ""))).2) := by
          rw [walkSegs, if_neg h, hsub]
        rw [e1, e2, ih (Directory.mk (d.path ++ seg ++ "/") "none" [] [])]

/-! ### Claim C2 — idempotent creation, one directory per path -/

/-- The empty model's root satisfies the invariant. -/
theorem inv_empty : Directory.inv Model.empty.rootDirectory := by
  show Directory.inv (Directory.mk "/" "none" [] [])
  rw [inv_mk]
  refine ⟨by decide, by decide, by simp, by simp, by simp⟩

/-- The `/a/b/` node after `Model.directory("/a/b/")` on an empty model. -/
def abNode : Directory := Directory.mk "/a/b/" "none" [] []

/-- The `/a/` node (holding `/a/b/`) after the same call. -/
def aNode : Directory := Directory.mk "/a/" "none" [] [abNode]

/-- The model after `Model.directory("/a/b/")` on an empty model. -/
def abModel : Model := ⟨Directory.mk "/" "none" [] [aNode], "", "", ""⟩

/-- Claim C2: for any sequence of `directory(path)` calls with well-formed
paths the tree holds exactly one directory per distinct path (all paths in
an invariant tree are distinct, and the walk preserves the invariant and
lands on the node of the requested path), a repeated call returns the
already-existing node without changing the tree, and missing ancestors are
created automatically (`directory("/a/b/")` makes `/a/` reachable from the
root even though it was never requested). -/
theorem claim_c2_directory_idempotent_unique :
    (∀ (d : Directory) (segs : List String), Directory.inv d → SegsOk segs →
        Directory.inv ((walkSegs id d segs).1)
        ∧ walkSegs id ((walkSegs id d segs).1) segs = walkSegs id d segs
        ∧ ((walkSegs id d segs).2).path = d.path ++ joinSegs segs)
    ∧ (∀ d : Directory, Directory.inv d → (Directory.allPaths d).Nodup)
    ∧ Directory.inv Model.empty.rootDirectory
    ∧ (Model.empty.directory "/a/b/" = .ok (abNode, abModel)
        ∧ abModel.rootDirectory.subdirectory "a" = some aNode
        ∧ aNode.subdirectory "b" = some abNode
        ∧ abModel.directory "/a/b/" = .ok (abNode, abModel)
        ∧ abModel.directory "/a/" = .ok (aNode, abModel)) :=
  ⟨fun d segs hinv hok =>
    ⟨walkSegs_inv id updOk_id segs d hinv hok,
     walkSegs_idem segs d hinv hok,
     walkSegs_snd_path id updOk_id segs d hinv hok⟩,
   fun d hinv => allPaths_nodup d hinv,
   inv_empty,
   by rfl, by rfl, by rfl, by rfl, by rfl⟩

/-- Witness for C2: the generic part applied to the empty root and the
segments of `/a/b/`. -/
theorem claim_c2_directory_idempotent_unique_witness :
    Directory.inv ((walkSegs id Model.empty.rootDirectory ["a", "b"]).1)
    ∧ walkSegs id ((walkSegs id Model.empty.rootDirectory ["a", "b"]).1)
        ["a", "b"] = walkSegs id Model.empty.rootDirectory ["a", "b"]
    ∧ ((walkSegs id Model.empty.rootDirectory ["a", "b"]).2).path =
        Model.empty.rootDirectory.path ++ joinSegs ["a", "b"] :=
  claim_c2_directory_idempotent_unique.1 Model.empty.rootDirectory ["a", "b"]
    inv_empty (by intro s hs; fin_cases hs <;> exact ⟨by decide, by decide⟩)

/-! ### Claim C3 — path validation in Model.directory (corrected) -/

/-- Counterexample to claim C3 as stated: `"//"` consists of empty segments
where names are required, yet `Model.directory` accepts it, returns the
root, and raises nothing (the blank segments are silently ignored). -/
theorem claim_c3_counterexample :
    Model.empty.directory "//" = .ok (Model.empty.rootDirectory, Model.empty) := by
  rfl

/-- Claim C3 (amended): a nonempty path missing the leading or the trailing
slash makes `Model.directory` fail with `CmException` before any mutation
(the empty path fails with `IndexError`), so the tree is unmodified; but a
path containing empty segments between slashes is not rejected — the blank
segments are silently ignored, e.g. `/a//b/` behaves exactly like
`/a/b/`. -/
theorem claim_c3_directory_validation :
    (∀ (m : Model) (p : String), p ≠ "" →
        (p.data.head? ≠ some '/' ∨ p.data.getLast? ≠ some '/') →
        m.directory p = .error (.cmException
          "Directory paths must start with a forward slash and end with a forward slash."))
    ∧ (∀ m : Model, m.directory "" = .error .indexError)
    ∧ (∀ (upd : Directory → Directory) (segs : List String) (d : Directory),
        walkSegs upd d segs = walkSegs upd d (segs.filter (fun s => s ≠ "")))
    ∧ (∀ m : Model, m.directory "/a//b/" = m.directory "/a/b/") := by
  refine ⟨?_, fun m => rfl, walkSegs_filter_blank, ?_⟩
  · intro m p hne hbad
    have hdata : p.data ≠ [] := fun hc =>
      hne ((strData_eq_iff p "").mpr (by simpa using hc))
    obtain ⟨c0, hh⟩ : ∃ c, p.data.head? = some c := by
      cases hd : p.data with
      | nil => exact absurd hd hdata
      | cons x xs => exact ⟨x, rfl⟩
    obtain ⟨c1, hl⟩ : ∃ c, p.data.getLast? = some c := by
      cases hd : p.data with
      | nil => exact absurd hd hdata
      | cons x xs =>
        exact ⟨(x :: xs).getLast (by simp), List.getLast?_eq_getLast _ (by simp)⟩
    have hcond : c0 ≠ '/' ∨ c1 ≠ '/' := by
      rcases hbad with hb | hb
      · left
        intro hc
        exact hb (by rw [hh, hc])
      · right
        intro hc
        exact hb (by rw [hl, hc])
    simp only [Model.directory, hh, hl]
    rw [if_pos hcond]
  · intro m
    show Except.ok ((walkSegs id m.rootDirectory (pySplit "/a//b/" '/')).2,
        Model.mk (walkSegs id m.rootDirectory (pySplit "/a//b/" '/')).1
          m.user m.log m.repo) =
      Except.ok ((walkSegs id m.rootDirectory (pySplit "/a/b/" '/')).2,
        Model.mk (walkSegs id m.rootDirectory (pySplit "/a/b/" '/')).1
          m.user m.log m.repo)
    rw [walkSegs_filter_blank id (pySplit "/a//b/" '/') m.rootDirectory,
      walkSegs_filter_blank id (pySplit "/a/b/" '/') m.rootDirectory]
    rfl

/-- Witness for C3 (amended): the spec's own example, `"a/"` with no
leading slash, fails with the validation exception. -/
theorem claim_c3_directory_validation_witness :
    Model.empty.directory "a/" = .error (.cmException
      "Directory paths must start with a forward slash and end with a forward slash.") :=
  claim_c3_directory_validation.1 Model.empty "a/" (by decide) (by decide)

/-! ### Claim C9 — file names (corrected: the empty name is allowed) -/

/-- Counterexample to claim C9 as stated: constructing a `File` with the
empty name succeeds and stores a file whose name is empty, instead of
failing. -/
theorem claim_c9_counterexample :
    File.create "" (Directory.mk "/" "none" [] []) "added" =
      .ok (⟨"", "added", none, none, none⟩,
        Directory.mk "/" "none" [⟨"", "added", none, none, none⟩] []) := by
  rfl

/-- Claim C9 (amended): a constructed file's name never contains `/` —
construction fails with `CmException` when the name has a slash and
otherwise stores the name unchanged — but the empty name is accepted:
non-emptiness is not enforced. -/
theorem claim_c9_file_name_no_slash :
    (∀ (n : String) (d : Directory) (a : String), n.data.contains '/' = true →
        File.create n d a = .error (.cmException
          "File names may not have foward slashes in them."))
    ∧ (∀ (n : String) (d : Directory) (a : String) (f : File) (d2 : Directory),
        File.create n d a = .ok (f, d2) →
          f.name = n ∧ n.data.contains '/' = false) := by
  constructor
  · intro n d a h
    rw [File.create, if_pos h]
  · intro n d a f d2 h
    rw [File.create] at h
    by_cases hc : n.data.contains '/' = true
    · rw [if_pos hc] at h
      exact absurd h (by simp)
    · rw [if_neg hc] at h
      simp only [Except.ok.injEq, Prod.mk.injEq] at h
      refine ⟨?_, by simpa using hc⟩
      rw [← h.1]

/-- Witness for C9 (amended): a name containing a slash is rejected. -/
theorem claim_c9_file_name_no_slash_witness :
    File.create "a/b" (Directory.mk "/" "none" [] []) "added" =
      .error (.cmException "File names may not have foward slashes in them.") :=
  claim_c9_file_name_no_slash.1 "a/b" (Directory.mk "/" "none" [] [])
    "added" (by decide)

/-! ### Claim C10 — Model.file creates missing ancestor directories -/

theorem map_mk_data (l : List String) :
    (l.map String.data).map (fun x => (⟨x⟩ : String)) = l := by
  rw [List.map_map]
  calc l.map ((fun x => (⟨x⟩ : String)) ∘ String.data)
      = l.map id := List.map_congr_left (fun s _ => rfl)
    _ = l := List.map_id l

theorem pySplit_no_slash {p s : String} (hs : s ∈ pySplit p '/') :
    '/' ∉ s.data := by
  rw [pySplit] at hs
  obtain ⟨piece, hp, hps⟩ := List.mem_map.mp hs
  rw [← hps]
  exact splitChar_no_sep '/' p.data piece hp

/-- The general statement of claim C10: looking up a well-formed file path
always succeeds with an `Option File` and, as a side effect, the resulting
model's tree resolves every prefix of the parent directory's segments: the
lookup creates missing ancestor directories even when it returns `none`. -/
theorem file_creates_ancestors (m : Model) (p : String)
    (hinv : Directory.inv m.rootDirectory) (hne : p ≠ "")
    (hh : p.data.head? = some '/') (hl : p.data.getLast? ≠ some '/') :
    ∃ (r : Option File) (m2 : Model), m.file p = .ok (r, m2)
      ∧ ∀ segs1 segs2 : List String,
          ((pySplit p '/').dropLast.filter (fun s => s ≠ "")) = segs1 ++ segs2 →
          (findSegs m2.rootDirectory segs1).isSome = true := by
  have hcond2 : ¬(p.data.head? ≠ some '/' ∨ p.data.getLast? = some '/') := by
    intro hor
    rcases hor with hx | hx
    · exact hx hh
    · exact hl hx
  have hfile : m.file p =
      (match m.directory (pyJoin '/' ((pySplit p '/').dropLast) ++ "/") with
       | .error e => .error e
       | .ok (dir, m2) => .ok (dir.file ((pySplit p '/').getLastD ""), m2)) := by
    rw [Model.file, if_neg hne, if_neg hcond2]
  obtain ⟨t, ht⟩ : ∃ t, p.data = '/' :: t := by
    cases hd : p.data with
    | nil =>
      rw [hd] at hh
      exact absurd hh (by simp)
    | cons x xs =>
      rw [hd] at hh
      simp only [List.head?_cons, Option.some.injEq] at hh
      exact ⟨xs, by rw [hh]⟩
  have hsp : splitChar '/' p.data = [] :: splitChar '/' t := by
    rw [ht]
    have h2 := splitChar_append '/' [] t
    rw [List.nil_append] at h2
    rw [h2]
    rfl
  have hparts : pySplit p '/' =
      "" :: (splitChar '/' t).map (fun l => (⟨l⟩ : String)) := by
    rw [pySplit, hsp, List.map_cons]
  cases hrsv : (splitChar '/' t).map (fun l => (⟨l⟩ : String)) with
  | nil =>
    exfalso
    cases hsc : splitChar '/' t with
    | nil => exact splitChar_ne_nil '/' t hsc
    | cons y ys =>
      rw [hsc] at hrsv
      simp at hrsv
  | cons r0 rtail =>
    have hpartsv : pySplit p '/' = "" :: r0 :: rtail := by
      rw [hparts, hrsv]
    cases rtail with
    | nil =>
      have hdrop : (pySplit p '/').dropLast = [""] := by
        rw [hpartsv]
        rfl
      refine ⟨m.rootDirectory.file ((pySplit p '/').getLastD ""), m, ?_, ?_⟩
      · rw [hfile, hdrop]
        rfl
      · intro segs1 segs2 hsegs
        rw [hdrop] at hsegs
        have h0 : (([""] : List String).filter (fun s => decide (s ≠ ""))) =
            ([] : List String) := rfl
        rw [h0] at hsegs
        have hs1 : segs1 = [] := (List.append_eq_nil.mp hsegs.symm).1
        rw [hs1]
        rfl
    | cons r1 rrest =>
      have hdrop : (pySplit p '/').dropLast =
          "" :: r0 :: (r1 :: rrest).dropLast := by
        rw [hpartsv]
        rfl
      have hfree : ∀ x ∈ (("" :: r0 :: (r1 :: rrest).dropLast).map String.data),
          '/' ∉ x := by
        intro x hx
        obtain ⟨s, hsmem, hsx⟩ := List.mem_map.mp hx
        rw [← hsx]
        refine pySplit_no_slash (p := p) ?_
        have : s ∈ (pySplit p '/').dropLast := by
          rw [hdrop]
          exact hsmem
        exact (List.dropLast_sublist (pySplit p '/')).subset this
      have hjoindata : (pyJoin '/' ("" :: r0 :: (r1 :: rrest).dropLast) ++ "/").data =
          joinChar '/' (("" :: r0 :: (r1 :: rrest).dropLast).map String.data) ++ ['/'] := by
        rw [strData_append]
        rfl
      have hresplit : pySplit (pyJoin '/' ("" :: r0 :: (r1 :: rrest).dropLast) ++ "/") '/' =
          ("" :: r0 :: (r1 :: rrest).dropLast) ++ [""] := by
        rw [pySplit, hjoindata, splitChar_concat_sep,
          splitChar_joinChar '/' (("" :: r0 :: (r1 :: rrest).dropLast).map String.data)
            (by simp) hfree]
        rw [List.map_append, map_mk_data]
        rfl
      have hhead2 : (pyJoin '/' ("" :: r0 :: (r1 :: rrest).dropLast) ++ "/").data.head? =
          some '/' := by
        rw [hjoindata]
        rfl
      have hlast2 : (pyJoin '/' ("" :: r0 :: (r1 :: rrest).dropLast) ++ "/").data.getLast? =
          some '/' := by
        rw [strData_append]
        exact List.getLast?_concat _
      have hneroot : pyJoin '/' ("" :: r0 :: (r1 :: rrest).dropLast) ++ "/" ≠ "/" := by
        intro hcon
        have hlen : (pyJoin '/' ("" :: r0 :: (r1 :: rrest).dropLast) ++ "/").data.length = 1 := by
          rw [hcon]
          rfl
        have hJ : joinChar '/' (("" :: r0 :: (r1 :: rrest).dropLast).map String.data) =
            '/' :: joinChar '/' ((r0 :: (r1 :: rrest).dropLast).map String.data) := rfl
        rw [hjoindata, hJ] at hlen
        simp only [List.length_append, List.length_cons, List.length_nil] at hlen
        omega
      have hdirstep : m.directory (pyJoin '/' ("" :: r0 :: (r1 :: rrest).dropLast) ++ "/") =
          .ok ((walkSegs id m.rootDirectory
              (pySplit (pyJoin '/' ("" :: r0 :: (r1 :: rrest).dropLast) ++ "/") '/')).2,
            Model.mk (walkSegs id m.rootDirectory
              (pySplit (pyJoin '/' ("" :: r0 :: (r1 :: rrest).dropLast) ++ "/") '/')).1
              m.user m.log m.repo) := by
        simp only [Model.directory, hhead2, hlast2]
        rw [if_neg (by simp), if_neg hneroot]
      have hfilter : ((("" :: r0 :: (r1 :: rrest).dropLast) ++ [""]).filter
            (fun s => decide (s ≠ ""))) =
          (((pySplit p '/').dropLast).filter (fun s => decide (s ≠ ""))) := by
        rw [List.filter_append, hdrop]
        simp
      have hwalk : walkSegs id m.rootDirectory
            (pySplit (pyJoin '/' ("" :: r0 :: (r1 :: rrest).dropLast) ++ "/") '/') =
          walkSegs id m.rootDirectory
            (((pySplit p '/').dropLast).filter (fun s => decide (s ≠ ""))) := by
        rw [walkSegs_filter_blank id
          (pySplit (pyJoin '/' ("" :: r0 :: (r1 :: rrest).dropLast) ++ "/") '/')
          m.rootDirectory]
        rw [hresplit, hfilter]
      refine ⟨((walkSegs id m.rootDirectory
          (pySplit (pyJoin '/' ("" :: r0 :: (r1 :: rrest).dropLast) ++ "/") '/')).2).file
            ((pySplit p '/').getLastD ""),
        Model.mk (walkSegs id m.rootDirectory
          (pySplit (pyJoin '/' ("" :: r0 :: (r1 :: rrest).dropLast) ++ "/") '/')).1
          m.user m.log m.repo, ?_, ?_⟩
      · rw [hfile, hdrop, hdirstep]
      · intro segs1 segs2 hsegs
        show (findSegs (walkSegs id m.rootDirectory
          (pySplit (pyJoin '/' ("" :: r0 :: (r1 :: rrest).dropLast) ++ "/") '/')).1
            segs1).isSome = true
        rw [hwalk]
        have hok : SegsOk (segs1 ++ segs2) := by
          rw [← hsegs]
          intro s hs
          have hmem := List.mem_filter.mp hs
          refine ⟨by simpa using hmem.2, ?_⟩
          exact pySplit_no_slash
            ((List.dropLast_sublist (pySplit p '/')).subset hmem.1)
        rw [hsegs]
        exact walkSegs_creates id updOk_id segs1 segs2 m.rootDirectory hinv hok

/-- Claim C10: `Model.file(path)` on a well-formed file path creates the
missing ancestor directories of the file's parent as a side effect of the
lookup, even when no such file exists and `None` is returned — the lookup
is not read-only.  Concretely, on an empty model `file("/a/b/x.txt")`
returns `None` yet leaves the tree holding `/a/` and `/a/b/`. -/
theorem claim_c10_file_lookup_creates_directories :
    (∀ (m : Model) (p : String), Directory.inv m.rootDirectory → p ≠ "" →
        p.data.head? = some '/' → p.data.getLast? ≠ some '/' →
        ∃ (r : Option File) (m2 : Model), m.file p = .ok (r, m2)
          ∧ ∀ segs1 segs2 : List String,
              ((pySplit p '/').dropLast.filter (fun s => s ≠ "")) = segs1 ++ segs2 →
              (findSegs m2.rootDirectory segs1).isSome = true)
    ∧ Model.empty.file "/a/b/x.txt" = .ok (none, abModel)
    ∧ abModel.rootDirectory.subdirectory "a" = some aNode
    ∧ aNode.subdirectory "b" = some abNode :=
  ⟨file_creates_ancestors, by rfl, by rfl, by rfl⟩

/-- Witness for C10: the general statement applied to the empty model and
the path `/a/b/x.txt`. -/
theorem claim_c10_file_lookup_creates_directories_witness :
    ∃ (r : Option File) (m2 : Model),
      Model.empty.file "/a/b/x.txt" = .ok (r, m2)
        ∧ ∀ segs1 segs2 : List String,
            ((pySplit "/a/b/x.txt" '/').dropLast.filter (fun s => s ≠ "")) =
              segs1 ++ segs2 →
            (findSegs m2.rootDirectory segs1).isSome = true :=
  claim_c10_file_lookup_creates_directories.1 Model.empty "/a/b/x.txt"
    inv_empty (by decide) (by decide) (by decide)

end Commitmessage
